import Mathlib

/-!
Verification of the language-statistics aggregation pipeline of
`src/main.rs` (`calculate_language_stats`, `render_progress_bar` and the
repository filter), as a shallow embedding.

Conventions:
* A serde_json repository object is modelled by the result of the three
  accessors the code applies to it (`as_bool`, `as_array` + `as_str`,
  `as_str`), each, per serde_json semantics, `none` when the field is
  absent or has the wrong JSON type.
* `u64` byte counts are modelled by `Nat` (the code's sums are asserted
  non-overflowing in debug builds; overflow is out of scope for every
  claim considered here).
* `f64` values are modelled by `F` below: a rational for a finite float,
  plus NaN and the two infinities.  Integer-to-float conversion is
  modelled as exact; this idealisation is monotone and preserves
  finiteness, the only facts the claims depend on.
* A `HashMap` is modelled by its contents as an association list.  The
  list produced by `mergeMaps` is in insertion (first-encountered)
  order; the order in which `HashMap::into_iter` actually yields the
  entries is an arbitrary permutation of it and is passed explicitly as
  the `entries` argument of `rankFromEntries`.
-/

/-- A repository JSON object as seen through the accessors the code uses:
`repo["fork"].as_bool()`, `repo["topics"].as_array()` with each element
read by `as_str()`, and `repo["languages_url"].as_str()`. -/
structure RepoJson where
  fork : Option Bool
  topics : Option (List (Option String))
  languagesUrl : Option String
deriving DecidableEq

/-- Outcome of one page request of the repository-listing loop
(`main.rs:117-122`): either `send()` fails, or a response arrives with a
status code and a body whose parse `json::<Vec<Value>>()` yields `some`
list of repository objects or fails (`none`). -/
inductive PageResult where
  | netErr : PageResult
  | response (status : Nat) (body : Option (List RepoJson)) : PageResult
deriving DecidableEq

/-- The two fatal failure modes of the listing loop: a transport failure
from `send()?` or a body-parse failure from `response.json()?`. -/
inductive FetchError where
  | transport : FetchError
  | parse : FetchError
deriving DecidableEq

/-- The pagination loop of `main.rs:112-128`, driven by the trace of page
results.  The status code of a response is never examined, exactly as in
the code.  `none` means the loop would request a page beyond the supplied
trace (the unmodelled continuation); `some` gives the loop's outcome. -/
def listReposAux : List PageResult → List RepoJson → Option (Except FetchError (List RepoJson))
  | [], _ => none
  | PageResult.netErr :: _, _ => some (Except.error FetchError.transport)
  | PageResult.response _ none :: _, _ => some (Except.error FetchError.parse)
  | PageResult.response _ (some []) :: _, acc => some (Except.ok acc)
  | PageResult.response _ (some (r :: rs)) :: rest, acc => listReposAux rest (acc ++ r :: rs)

/-- `all_repos` as produced by the loop at `main.rs:109-128`, starting
from the empty accumulator. -/
def listRepos (pages : List PageResult) : Option (Except FetchError (List RepoJson)) :=
  listReposAux pages []

/-- `repo["fork"].as_bool().unwrap_or(false)` (`main.rs:133`). -/
def forkFlag (r : RepoJson) : Bool :=
  r.fork.getD false

/-- The topic test of `main.rs:136-140`: if a topics array is present,
whether some element string-compares equal to "mirror" or "no-stats". -/
def topicExcluded (r : RepoJson) : Bool :=
  match r.topics with
  | some ts => ts.any (fun t => t == some "mirror" || t == some "no-stats")
  | none => false

/-- The repository filter of `main.rs:133-141`: a repository is skipped
when its fork flag reads true or the topic test fires. -/
def excludedByFilter (r : RepoJson) : Bool :=
  forkFlag r || topicExcluded r

/-- One unit of work of the `filter_map` closure (`main.rs:132-151`):
filtered-out repositories and repositories whose language fetch or parse
fails (`fetch` returning `none` models `.ok()` seeing an error, and a
missing `languages_url` models `as_str()` returning `None`) contribute
nothing. -/
def processRepo (fetch : String → Option (List (String × Nat))) (r : RepoJson) :
    Option (List (String × Nat)) :=
  if excludedByFilter r then none else r.languagesUrl.bind fetch

/-- `lang_maps` (`main.rs:130-152`): rayon's indexed `collect` preserves
input order, so the result is an order-preserving `filterMap`. -/
def langMaps (fetch : String → Option (List (String × Nat))) (repos : List RepoJson) :
    List (List (String × Nat)) :=
  repos.filterMap (processRepo fetch)

/-- `*languages.entry(lang).or_insert(0) += bytes` (`main.rs:157`) on an
association list in insertion order: add to an existing key in place, or
append the new key at the end. -/
def addEntry (acc : List (String × Nat)) (e : String × Nat) : List (String × Nat) :=
  match acc with
  | [] => [e]
  | (k, v) :: rest => if k = e.1 then (k, v + e.2) :: rest else (k, v) :: addEntry rest e

/-- The inner loop of `main.rs:156-158`: merge one repository map into
the running totals. -/
def mergeOne (acc m : List (String × Nat)) : List (String × Nat) :=
  m.foldl addEntry acc

/-- The merge loop of `main.rs:154-159`: fold every per-repository map
into one totals map. -/
def mergeMaps (maps : List (List (String × Nat))) : List (String × Nat) :=
  maps.foldl mergeOne []

/-- Total bytes contributed to key `k` by one map `m`. -/
def sumFor (k : String) (m : List (String × Nat)) : Nat :=
  ((m.filter (fun e => e.1 == k)).map (fun e => e.2)).sum

/-- An `f64` value: a finite value (exact rational), NaN, or an
infinity. -/
inductive F where
  | fin (q : ℚ) : F
  | nan : F
  | inf : F
  | ninf : F
deriving DecidableEq

def F.isNan : F → Bool
  | F.nan => true
  | _ => false

def F.isFinite : F → Bool
  | F.fin _ => true
  | _ => false

/-- `n as f64`, modelled as exact (see the header note). -/
def F.ofNat (n : Nat) : F :=
  F.fin (n : ℚ)

/-- IEEE-754 division on the `F` model. -/
def fdiv : F → F → F
  | F.nan, _ => F.nan
  | _, F.nan => F.nan
  | F.fin x, F.fin y =>
      if y = 0 then (if x = 0 then F.nan else if 0 < x then F.inf else F.ninf)
      else F.fin (x / y)
  | F.inf, F.inf => F.nan
  | F.inf, F.ninf => F.nan
  | F.ninf, F.inf => F.nan
  | F.ninf, F.ninf => F.nan
  | F.inf, F.fin y => if y < 0 then F.ninf else F.inf
  | F.ninf, F.fin y => if y < 0 then F.inf else F.ninf
  | F.fin _, F.inf => F.fin 0
  | F.fin _, F.ninf => F.fin 0

/-- IEEE-754 multiplication on the `F` model. -/
def fmul : F → F → F
  | F.nan, _ => F.nan
  | _, F.nan => F.nan
  | F.fin x, F.fin y => F.fin (x * y)
  | F.inf, F.inf => F.inf
  | F.inf, F.ninf => F.ninf
  | F.ninf, F.inf => F.ninf
  | F.ninf, F.ninf => F.inf
  | F.inf, F.fin y => if y = 0 then F.nan else if 0 < y then F.inf else F.ninf
  | F.fin x, F.inf => if x = 0 then F.nan else if 0 < x then F.inf else F.ninf
  | F.ninf, F.fin y => if y = 0 then F.nan else if 0 < y then F.ninf else F.inf
  | F.fin x, F.ninf => if x = 0 then F.nan else if 0 < x then F.ninf else F.inf

/-- `f64::partial_cmp`: `none` exactly when an operand is NaN. -/
def cmpF : F → F → Option Ordering
  | F.nan, _ => none
  | _, F.nan => none
  | F.fin x, F.fin y =>
      some (if x < y then Ordering.lt else if y < x then Ordering.gt else Ordering.eq)
  | F.fin _, F.inf => some Ordering.lt
  | F.fin _, F.ninf => some Ordering.gt
  | F.inf, F.fin _ => some Ordering.gt
  | F.inf, F.inf => some Ordering.eq
  | F.inf, F.ninf => some Ordering.gt
  | F.ninf, F.fin _ => some Ordering.lt
  | F.ninf, F.inf => some Ordering.lt
  | F.ninf, F.ninf => some Ordering.eq

/-- The sort comparator of `main.rs:171`,
`|a, b| b.1.partial_cmp(&a.1).unwrap()`, as the "may precede" Boolean of
a stable sort: `a` may stay before `b` when the comparator does not say
Greater.  An unorderable pair (`partial_cmp` returning `None`) makes the
code panic; that panic is modelled by the NaN guard in
`rankFromEntries`, so the `none` branch here is never reached on the
`some` path. -/
def sortLe (a b : String × F) : Bool :=
  match cmpF b.2 a.2 with
  | some Ordering.gt => false
  | some _ => true
  | none => false

/-- Insert `a` into `l`, keeping `a` before the first element it may
precede. -/
def insertLe {α : Type} (le : α → α → Bool) (a : α) : List α → List α
  | [] => [a]
  | b :: l => if le a b then a :: b :: l else b :: insertLe le a l

/-- Stable insertion sort.  `slice::sort_by` guarantees a stable sort by
the comparator; every stable sort of a total preorder yields the same
list, so stable insertion sort is an exact model of its result. -/
def stableSort {α : Type} (le : α → α → Bool) : List α → List α
  | [] => []
  | a :: l => insertLe le a (stableSort le l)

/-- `total_bytes` (`main.rs:161`). -/
def totalBytes (entries : List (String × Nat)) : Nat :=
  (entries.map (fun e => e.2)).sum

/-- `language_percentages` before sorting (`main.rs:166-169`):
`(count as f64 / total_bytes as f64) * 100.0` per entry, in the order
the totals map yields its entries. -/
def languagePercentages (entries : List (String × Nat)) : List (String × F) :=
  entries.map (fun e => (e.1, fmul (fdiv (F.ofNat e.2) (F.ofNat (totalBytes entries))) (F.fin 100)))

/-- `main.rs:161-173`: the early return for zero total, the percentage
computation, the stable descending sort and the truncation to 8.  The
result is `none` when the sort's `unwrap` would panic, i.e. when a NaN
percentage is present (a NaN never arises past the zero-total guard;
claim C8). -/
def rankFromEntries (entries : List (String × Nat)) : Option (List (String × F)) :=
  if totalBytes entries = 0 then some []
  else
    let perc := languagePercentages entries
    if perc.any (fun e => F.isNan e.2) then none
    else some ((stableSort sortLe perc).take 8)

/-- `f64::round`: round half away from zero. -/
def roundHalfAway (q : ℚ) : Int :=
  if 0 ≤ q then ⌊q + 1 / 2⌋ else ⌈q - 1 / 2⌉

/-- `render_progress_bar` (`main.rs:184-188`).  `num_filled` is
`(percentage / 10.0).round().max(0.0) as usize` (the `as usize` cast
saturates below at 0, already ensured by the `max`).  The subtraction
`10 - num_filled` is performed on `usize`, so when `num_filled > 10` it
underflows: a debug build panics, and a release build wraps around and
the following `"░".repeat` panics with a capacity overflow; either way
the call aborts, modelled by `none`. -/
def renderProgressBar (percentage : ℚ) : Option String :=
  let numFilled : Nat := (max (roundHalfAway (percentage / 10)) 0).toNat
  if numFilled ≤ 10 then
    some (String.mk (List.replicate numFilled '▓' ++ List.replicate (10 - numFilled) '░'))
  else none

/-! ## Properties of the stable sort -/

theorem insertLe_perm {α : Type} (le : α → α → Bool) (a : α) (l : List α) :
    List.Perm (insertLe le a l) (a :: l) := by
  induction l with
  | nil => simp [insertLe]
  | cons b t ih =>
      by_cases h : le a b = true
      · simp [insertLe, h]
      · simp only [insertLe, h, if_false, Bool.false_eq_true]
        exact (List.Perm.cons b ih).trans (List.Perm.swap a b t)

theorem stableSort_perm {α : Type} (le : α → α → Bool) (l : List α) :
    List.Perm (stableSort le l) l := by
  induction l with
  | nil => simp [stableSort]
  | cons a t ih => exact (insertLe_perm le a (stableSort le t)).trans (List.Perm.cons a ih)

theorem length_stableSort {α : Type} (le : α → α → Bool) (l : List α) :
    (stableSort le l).length = l.length :=
  (stableSort_perm le l).length_eq

theorem pairwise_insertLe {α : Type} (le : α → α → Bool)
    (htr : ∀ x y z : α, le x y = true → le y z = true → le x z = true)
    (a : α) (l : List α)
    (hta : ∀ b ∈ l, le a b = true ∨ le b a = true)
    (hl : l.Pairwise (fun x y => le x y = true)) :
    (insertLe le a l).Pairwise (fun x y => le x y = true) := by
  induction l with
  | nil => simp [insertLe]
  | cons b t ih =>
      rcases List.pairwise_cons.mp hl with ⟨hb, ht⟩
      by_cases h : le a b = true
      · simp only [insertLe, h, if_true]
        refine List.pairwise_cons.mpr ⟨?_, hl⟩
        intro x hx
        rcases List.mem_cons.mp hx with rfl | hx
        · exact h
        · exact htr a b x h (hb x hx)
      · have hab : le b a = true := by
          rcases hta b (List.mem_cons_self b t) with h1 | h1
          · exact absurd h1 h
          · exact h1
        simp only [insertLe, h, if_false, Bool.false_eq_true]
        refine List.pairwise_cons.mpr
          ⟨?_, ih (fun x hx => hta x (List.mem_cons_of_mem b hx)) ht⟩
        intro x hx
        rcases List.mem_cons.mp ((insertLe_perm le a t).mem_iff.mp hx) with rfl | hx
        · exact hab
        · exact hb x hx

theorem pairwise_stableSort {α : Type} (le : α → α → Bool)
    (htr : ∀ x y z : α, le x y = true → le y z = true → le x z = true)
    (l : List α)
    (htot : ∀ x ∈ l, ∀ y ∈ l, le x y = true ∨ le y x = true) :
    (stableSort le l).Pairwise (fun x y => le x y = true) := by
  induction l with
  | nil => simp [stableSort]
  | cons a t ih =>
      refine pairwise_insertLe le htr a (stableSort le t) ?_
        (ih (fun x hx y hy =>
          htot x (List.mem_cons_of_mem a hx) y (List.mem_cons_of_mem a hy)))
      intro b hb
      exact htot a (List.mem_cons_self a t) b
        (List.mem_cons_of_mem a ((stableSort_perm le t).mem_iff.mp hb))

theorem sortLe_fin_iff (s t : String) (a b : ℚ) :
    sortLe (s, F.fin a) (t, F.fin b) = true ↔ b ≤ a := by
  by_cases h1 : b < a
  · simp [sortLe, cmpF, h1, le_of_lt h1, not_lt.mpr (le_of_lt h1)]
  · by_cases h2 : a < b
    · simp [sortLe, cmpF, h1, h2, not_le.mpr h2]
    · simp [sortLe, cmpF, h1, h2, not_lt.mp h2]

theorem sortLe_trans (x y z : String × F) (hxy : sortLe x y = true) (hyz : sortLe y z = true) :
    sortLe x z = true := by
  rcases x with ⟨xs, xf⟩
  rcases y with ⟨ys, yf⟩
  rcases z with ⟨zs, zf⟩
  cases xf <;> cases yf <;> cases zf <;>
    first
    | (rw [sortLe_fin_iff] at hxy hyz ⊢
       exact le_trans hyz hxy)
    | simp_all [sortLe, cmpF]

theorem sortLe_total (x y : String × F) (hx : F.isNan x.2 = false) (hy : F.isNan y.2 = false) :
    sortLe x y = true ∨ sortLe y x = true := by
  rcases x with ⟨xs, xf⟩
  rcases y with ⟨ys, yf⟩
  cases xf with
  | fin a =>
      cases yf with
      | fin b =>
          rw [sortLe_fin_iff, sortLe_fin_iff]
          exact le_total b a
      | nan => simp [F.isNan] at hy
      | inf =>
          right
          simp [sortLe, cmpF]
      | ninf =>
          left
          simp [sortLe, cmpF]
  | nan => simp [F.isNan] at hx
  | inf =>
      left
      cases yf <;> simp_all [sortLe, cmpF, F.isNan]
  | ninf =>
      cases yf with
      | fin b =>
          right
          simp [sortLe, cmpF]
      | nan => simp [F.isNan] at hy
      | inf =>
          right
          simp [sortLe, cmpF]
      | ninf =>
          left
          simp [sortLe, cmpF]

/-! ## Properties of the percentage computation -/

theorem languagePercentages_eq (entries : List (String × Nat)) (h : 0 < totalBytes entries) :
    languagePercentages entries
      = entries.map (fun e => (e.1, F.fin ((e.2 : ℚ) / (totalBytes entries : ℚ) * 100))) := by
  have ht : ((totalBytes entries : ℚ)) ≠ 0 := (Nat.cast_pos.mpr h).ne'
  unfold languagePercentages
  simp [fdiv, fmul, F.ofNat, ht]

theorem rank_eq_of_pos (entries : List (String × Nat)) (h : 0 < totalBytes entries) :
    rankFromEntries entries
      = some ((stableSort sortLe (languagePercentages entries)).take 8) := by
  have hnan : (languagePercentages entries).any (fun e => F.isNan e.2) = false := by
    rw [languagePercentages_eq entries h, List.any_eq_false]
    rintro ⟨a, b⟩ hab
    rcases List.mem_map.mp hab with ⟨e, _, heq⟩
    cases heq
    simp [F.isNan]
  unfold rankFromEntries
  simp [h.ne', hnan]

theorem sum_div_mul (l : List Nat) (T : ℚ) :
    (l.map (fun c : Nat => (c : ℚ) / T * 100)).sum
      = (l.map (fun c : Nat => (c : ℚ))).sum / T * 100 := by
  induction l with
  | nil => simp
  | cons c t ih =>
      simp only [List.map_cons, List.sum_cons, ih]
      ring

/-! ## Properties of the merge -/

theorem lookup_addEntry (k : String) (acc : List (String × Nat)) (e : String × Nat) :
    List.lookup k (addEntry acc e)
      = if e.1 = k then some ((List.lookup k acc).getD 0 + e.2) else List.lookup k acc := by
  induction acc with
  | nil =>
      by_cases h : e.1 = k
      · have hb : (k == e.1) = true := beq_iff_eq.mpr h.symm
        simp only [addEntry, List.lookup, hb, if_pos h, Option.getD_none, Nat.zero_add]
      · have hb : (k == e.1) = false := beq_eq_false_iff_ne.mpr (fun hh => h hh.symm)
        simp only [addEntry, List.lookup, hb, if_neg h]
  | cons a rest ih =>
      rcases a with ⟨ak, av⟩
      by_cases hae : ak = e.1
      · by_cases hk : ak = k
        · have h1 : e.1 = k := hae.symm.trans hk
          have hb : (k == ak) = true := beq_iff_eq.mpr hk.symm
          simp only [addEntry, if_pos hae, List.lookup, hb, if_pos h1, Option.getD_some]
        · have h1 : ¬ e.1 = k := fun h => hk (hae.trans h)
          have hb : (k == ak) = false := beq_eq_false_iff_ne.mpr (fun hh => hk hh.symm)
          simp only [addEntry, if_pos hae, List.lookup, hb, if_neg h1]
      · by_cases hk : ak = k
        · have h1 : ¬ e.1 = k := fun h => hae (hk.trans h.symm)
          have hb : (k == ak) = true := beq_iff_eq.mpr hk.symm
          simp only [addEntry, if_neg hae, List.lookup, hb, if_neg h1]
        · have hb : (k == ak) = false := beq_eq_false_iff_ne.mpr (fun hh => hk hh.symm)
          simp only [addEntry, if_neg hae, List.lookup, hb]
          exact ih

theorem sumFor_eq_zero (k : String) (m : List (String × Nat))
    (h : (m.any fun e => e.1 == k) = false) : sumFor k m = 0 := by
  unfold sumFor
  rw [List.any_eq_false] at h
  have hnil : m.filter (fun e => e.1 == k) = [] := by
    rw [List.filter_eq_nil_iff]
    intro e he
    exact h e he
  rw [hnil]
  rfl

theorem sumFor_cons_pos (k : String) (e : String × Nat) (t : List (String × Nat))
    (hb : (e.1 == k) = true) : sumFor k (e :: t) = e.2 + sumFor k t := by
  unfold sumFor
  rw [List.filter_cons, if_pos hb]
  rw [List.map_cons, List.sum_cons]

theorem sumFor_cons_neg (k : String) (e : String × Nat) (t : List (String × Nat))
    (hb : (e.1 == k) = false) : sumFor k (e :: t) = sumFor k t := by
  unfold sumFor
  rw [List.filter_cons, if_neg (by rw [hb]; exact Bool.false_ne_true)]

theorem lookup_mergeOne (k : String) (m acc : List (String × Nat)) :
    List.lookup k (mergeOne acc m)
      = match List.lookup k acc with
        | some v => some (v + sumFor k m)
        | none =>
            if m.any (fun e => e.1 == k) then some (sumFor k m) else none := by
  induction m generalizing acc with
  | nil =>
      cases h : List.lookup k acc
      · simp only [mergeOne, List.foldl_nil, h, List.any_nil, Bool.false_eq_true, if_false]
      · simp only [mergeOne, List.foldl_nil, h]
        rw [sumFor_eq_zero k [] rfl, Nat.add_zero]
  | cons e t ih =>
      have step : mergeOne acc (e :: t) = mergeOne (addEntry acc e) t := rfl
      rw [step, ih (addEntry acc e), lookup_addEntry, List.any_cons]
      by_cases he : e.1 = k
      · have hb : (e.1 == k) = true := beq_iff_eq.mpr he
        rw [if_pos he, hb, Bool.true_or, sumFor_cons_pos k e t hb]
        cases h : List.lookup k acc
        · simp only [Option.getD_none, Nat.zero_add, eq_self_iff_true, if_true]
        · simp only [Option.getD_some, Nat.add_assoc]
      · have hb : (e.1 == k) = false := beq_eq_false_iff_ne.mpr he
        rw [if_neg he, hb, Bool.false_or, sumFor_cons_neg k e t hb]

theorem lookup_foldl_mergeOne (k : String) (maps : List (List (String × Nat)))
    (acc : List (String × Nat)) :
    List.lookup k (maps.foldl mergeOne acc)
      = match List.lookup k acc with
        | some v => some (v + (maps.map (sumFor k)).sum)
        | none =>
            if maps.any (fun m => m.any (fun e => e.1 == k))
            then some ((maps.map (sumFor k)).sum) else none := by
  induction maps generalizing acc with
  | nil =>
      cases h : List.lookup k acc
      · simp only [List.foldl_nil, h, List.any_nil, Bool.false_eq_true, if_false]
      · simp only [List.foldl_nil, h, List.map_nil, List.sum_nil, Nat.add_zero]
  | cons m t ih =>
      rw [List.foldl_cons, ih (mergeOne acc m), lookup_mergeOne, List.any_cons,
        List.map_cons, List.sum_cons]
      cases h : List.lookup k acc
      · cases hm : (m.any fun e => e.1 == k)
        · have hz : sumFor k m = 0 := sumFor_eq_zero k m hm
          rw [hz, Bool.false_or]
          simp only [Bool.false_eq_true, if_false, Nat.zero_add]
        · rw [Bool.true_or]
          simp only [eq_self_iff_true, if_true]
      · simp only [Option.getD_some, Nat.add_assoc]

theorem lookup_mergeMaps (k : String) (maps : List (List (String × Nat))) :
    List.lookup k (mergeMaps maps)
      = if maps.any (fun m => m.any (fun e => e.1 == k))
        then some ((maps.map (sumFor k)).sum) else none := by
  unfold mergeMaps
  rw [lookup_foldl_mergeOne]
  simp only [List.lookup_nil]

theorem any_eq_of_perm {α : Type} (l₁ l₂ : List α) (hp : List.Perm l₁ l₂) (p : α → Bool) :
    l₁.any p = l₂.any p := by
  cases h1 : l₁.any p
  · cases h2 : l₂.any p
    · rfl
    · rw [List.any_eq_true] at h2
      rcases h2 with ⟨x, hx, hpx⟩
      rw [List.any_eq_false] at h1
      exact absurd hpx (h1 x (hp.mem_iff.mpr hx))
  · rw [List.any_eq_true] at h1
    rcases h1 with ⟨x, hx, hpx⟩
    rw [eq_comm, List.any_eq_true]
    exact ⟨x, hp.mem_iff.mp hx, hpx⟩

/-! ## Helpers for the claims -/

/-- A listing outcome that aborts the pipeline (the `?` operator at
`main.rs:121-122` propagating an error to the caller). -/
def isFatal : Option (Except FetchError (List RepoJson)) → Bool
  | some (Except.error _) => true
  | _ => false

theorem mem_languagePercentages_fin (entries : List (String × Nat))
    (h : 0 < totalBytes entries) :
    ∀ x ∈ languagePercentages entries, ∃ q, x.2 = F.fin q := by
  rw [languagePercentages_eq entries h]
  rintro ⟨a, b⟩ hx
  rcases List.mem_map.mp hx with ⟨e, _, heq⟩
  cases heq
  exact ⟨_, rfl⟩

theorem listReposAux_error (bad : PageResult) (rest : List PageResult)
    (hb : bad = PageResult.netErr ∨ ∃ s, bad = PageResult.response s none) :
    ∀ good : List PageResult,
      (∀ p ∈ good, ∃ s l, p = PageResult.response s (some l) ∧ l ≠ []) →
      ∀ acc, isFatal (listReposAux (good ++ bad :: rest) acc) = true := by
  intro good
  induction good with
  | nil =>
      intro _ acc
      rcases hb with hb | ⟨s, hb⟩ <;> subst hb <;> rfl
  | cons p t ih =>
      intro hg acc
      rcases hg p (List.mem_cons_self p t) with ⟨s, l, rfl, hl⟩
      cases l with
      | nil => exact absurd rfl hl
      | cons r rs =>
          exact ih (fun q hq => hg q (List.mem_cons_of_mem _ hq)) (acc ++ r :: rs)

/-- The status code of a page response never influences the listing
outcome (supporting fact for claim C3). -/
def setStatus (f : Nat → Nat) : PageResult → PageResult
  | PageResult.netErr => PageResult.netErr
  | PageResult.response s b => PageResult.response (f s) b

theorem listReposAux_ignores_status (f : Nat → Nat) :
    ∀ (pages : List PageResult) (acc : List RepoJson),
      listReposAux (pages.map (setStatus f)) acc = listReposAux pages acc := by
  intro pages
  induction pages with
  | nil => intro acc; rfl
  | cons p t ih =>
      intro acc
      cases p with
      | netErr => rfl
      | response s b =>
          cases b with
          | none => rfl
          | some l =>
              cases l with
              | nil => rfl
              | cons r rs => exact ih (acc ++ r :: rs)

theorem listRepos_ignores_status (f : Nat → Nat) (pages : List PageResult) :
    listRepos (pages.map (setStatus f)) = listRepos pages :=
  listReposAux_ignores_status f pages []

/-! ## The claims -/

/-- C7: the repository filter excludes a record exactly when its fork
flag is `true`, or its topics array contains the exact case-sensitive
string "mirror" or "no-stats"; a record without a topics array is never
excluded on topic grounds.  The decision is a total Boolean function, so
no error can arise. -/
theorem filter_excludes_iff (r : RepoJson) :
    excludedByFilter r = true
      ↔ (r.fork = some true
          ∨ ∃ ts, r.topics = some ts ∧ (some "mirror" ∈ ts ∨ some "no-stats" ∈ ts)) := by
  rcases r with ⟨f, t, u⟩
  unfold excludedByFilter forkFlag topicExcluded
  cases f <;> cases t <;>
    simp [List.any_eq_true]
  · constructor
    · rintro ⟨x, hx, rfl | rfl⟩
      · exact Or.inl hx
      · exact Or.inr hx
    · rintro (hx | hx)
      · exact ⟨_, hx, Or.inl rfl⟩
      · exact ⟨_, hx, Or.inr rfl⟩
  · rename_i b ts
    constructor
    · rintro (rfl | ⟨x, hx, rfl | rfl⟩)
      · exact Or.inl rfl
      · exact Or.inr (Or.inl hx)
      · exact Or.inr (Or.inr hx)
    · rintro (hb | hx | hx)
      · exact Or.inl hb
      · exact Or.inr ⟨_, hx, Or.inl rfl⟩
      · exact Or.inr ⟨_, hx, Or.inr rfl⟩

/-- C10: a repository record whose "fork" field is absent or not a
boolean (`r.fork = none`, i.e. `as_bool()` returned `None`) is treated
as not a fork: only the topic test can exclude it, and when that test
does not fire the repository proceeds to the language fetch. -/
theorem fork_absent_included (r : RepoJson)
    (fetch : String → Option (List (String × Nat))) (h : r.fork = none) :
    excludedByFilter r = topicExcluded r
    ∧ (topicExcluded r = false → processRepo fetch r = r.languagesUrl.bind fetch) := by
  have hff : forkFlag r = false := by
    unfold forkFlag
    rw [h]
    rfl
  constructor
  · unfold excludedByFilter
    rw [hff, Bool.false_or]
  · intro ht
    unfold processRepo excludedByFilter
    rw [hff, ht]
    rfl

/-- C10 witness: a concrete record with no usable "fork" field and topics
`["documentation"]` is not excluded and proceeds to its language fetch. -/
theorem fork_absent_included_witness :
    excludedByFilter ⟨none, some [some "documentation"], some "u"⟩
        = topicExcluded ⟨none, some [some "documentation"], some "u"⟩
    ∧ (topicExcluded (⟨none, some [some "documentation"], some "u"⟩ : RepoJson) = false →
        processRepo (fun _ => none) ⟨none, some [some "documentation"], some "u"⟩
          = (Option.some "u").bind (fun _ => none)) :=
  fork_absent_included ⟨none, some [some "documentation"], some "u"⟩ (fun _ => none) rfl

/-- C9: when the summed byte total is zero (in particular for the empty
totals map) the ranking step returns an empty list, with no error
(`main.rs:162-164`). -/
theorem empty_result_on_zero_total (entries : List (String × Nat))
    (h : totalBytes entries = 0) :
    rankFromEntries entries = some [] := by
  unfold rankFromEntries
  rw [if_pos h]

/-- C9 witness: the empty totals map yields the empty ranked list. -/
theorem empty_result_on_zero_total_witness : rankFromEntries [] = some [] :=
  empty_result_on_zero_total [] rfl

/-- C5: a repository whose language-endpoint fetch or parse fails
(`fetch` yields `none` for its URL) is silently dropped by the
`filter_map`: the collected maps, and hence the merged totals, are
identical to a run without that repository, and no error escapes (the
involved functions are total). -/
theorem failed_fetch_zero_contribution (pre post : List RepoJson) (r : RepoJson)
    (fetch : String → Option (List (String × Nat))) (u : String)
    (hu : r.languagesUrl = some u) (hf : fetch u = none) :
    langMaps fetch (pre ++ r :: post) = langMaps fetch (pre ++ post)
    ∧ mergeMaps (langMaps fetch (pre ++ r :: post))
        = mergeMaps (langMaps fetch (pre ++ post)) := by
  have hr : processRepo fetch r = none := by
    unfold processRepo
    by_cases h : excludedByFilter r = true
    · rw [if_pos h]
    · rw [if_neg h, hu]
      exact hf
  have heq : langMaps fetch (pre ++ r :: post) = langMaps fetch (pre ++ post) := by
    unfold langMaps
    rw [List.filterMap_append, List.filterMap_append, List.filterMap_cons, hr]
  exact ⟨heq, by rw [heq]⟩

/-- C5 witness: one eligible repository whose fetch fails contributes
exactly as if it were absent. -/
theorem failed_fetch_zero_contribution_witness :
    langMaps (fun _ => none) ([] ++ (⟨some false, none, some "u"⟩ : RepoJson) :: [])
        = langMaps (fun _ => none) ([] ++ [])
    ∧ mergeMaps (langMaps (fun _ => none) ([] ++ (⟨some false, none, some "u"⟩ : RepoJson) :: []))
        = mergeMaps (langMaps (fun _ => none) ([] ++ [])) :=
  failed_fetch_zero_contribution [] [] ⟨some false, none, some "u"⟩ (fun _ => none) "u" rfl rfl

/-- C4: merging any permutation of the per-repository maps produces the
same totals: every key is bound to the same summed byte count (equality
of `HashMap` contents; the insertion order of the association list is
the only thing that may differ). -/
theorem merge_perm_invariant (maps₁ maps₂ : List (List (String × Nat)))
    (hp : List.Perm maps₁ maps₂) (k : String) :
    List.lookup k (mergeMaps maps₁) = List.lookup k (mergeMaps maps₂) := by
  rw [lookup_mergeMaps, lookup_mergeMaps,
    any_eq_of_perm maps₁ maps₂ hp (fun m => m.any (fun e => e.1 == k)),
    (hp.map (sumFor k)).sum_eq]

/-- C4 witness: swapping two concrete maps leaves the total for "Go"
unchanged. -/
theorem merge_perm_invariant_witness :
    List.lookup "Go" (mergeMaps [[("Go", 300)], [("Go", 200), ("TS", 500)]])
      = List.lookup "Go" (mergeMaps [[("Go", 200), ("TS", 500)], [("Go", 300)]]) :=
  merge_perm_invariant [[("Go", 300)], [("Go", 200), ("TS", 500)]]
    [[("Go", 200), ("TS", 500)], [("Go", 300)]]
    (List.Perm.swap [("Go", 200), ("TS", 500)] [("Go", 300)] []) "Go"

/-- C3 counterexample: a page answered with non-success HTTP status 500
whose body still parses as an empty JSON array does not abort the
pipeline — the loop treats it as the end of pagination and returns
success, because the status code is never examined
(`main.rs:117-125` has no `status()` check, unlike `main.rs:89`). -/
theorem nonsuccess_status_not_fatal :
    listRepos [PageResult.response 500 (some [])] = some (Except.ok []) := rfl

/-- C3 (amended): a page request that fails at the transport level or
whose body fails to parse as a JSON array aborts the whole pipeline with
a fatal error, discarding any previously accumulated repositories; the
HTTP status itself is never consulted (see
`listRepos_ignores_status`). -/
theorem page_failure_is_fatal (good rest : List PageResult) (bad : PageResult)
    (hg : ∀ p ∈ good, ∃ s l, p = PageResult.response s (some l) ∧ l ≠ [])
    (hb : bad = PageResult.netErr ∨ ∃ s, bad = PageResult.response s none) :
    isFatal (listRepos (good ++ bad :: rest)) = true :=
  listReposAux_error bad rest hb good hg []

/-- C3 witness: a network failure on the second page aborts the run even
though the first page returned repositories. -/
theorem page_failure_is_fatal_witness :
    isFatal (listRepos ([PageResult.response 200 (some [⟨some false, none, some "u"⟩])]
        ++ PageResult.netErr :: [])) = true := by
  refine page_failure_is_fatal _ _ _ ?_ (Or.inl rfl)
  intro p hp
  rw [List.mem_singleton] at hp
  subst hp
  exact ⟨200, [⟨some false, none, some "u"⟩], rfl, by simp⟩

/-- C2 counterexample: with two languages of equal byte count, A merged
before B, the totals map contents are [("A",5), ("B",5)] in
first-encountered order — but `std::collections::HashMap` iteration
order is arbitrary (randomly seeded per process), so the ranking may
receive the entries as [("B",5), ("A",5)]; the stable sort then emits
the tied entries with B before A, contradicting the claimed
first-encountered tie order. -/
theorem tie_order_not_first_encountered :
    mergeMaps [[("A", 5)], [("B", 5)]] = [("A", 5), ("B", 5)]
    ∧ rankFromEntries [("B", 5), ("A", 5)] = some [("B", F.fin 50), ("A", F.fin 50)] := by
  constructor
  · decide
  · simp [rankFromEntries, languagePercentages, totalBytes, stableSort, insertLe, sortLe, cmpF,
      fdiv, fmul, F.ofNat, F.isNan]
    norm_num

/-- C2 (amended): for a totals map with distinct keys and positive total,
delivered to the ranking in an arbitrary (hash-map) iteration order
`entries`, the output is the stable descending sort truncated to 8: it
is sorted (any strictly larger percentage precedes a smaller one; ties
keep the iteration order, which is unspecified and not necessarily
first-encountered order) and its length is min 8 (number of distinct
languages). -/
theorem ranked_descending_and_truncated (entries : List (String × Nat))
    (_hnd : (entries.map (fun e => e.1)).Nodup) (h : 0 < totalBytes entries) :
    rankFromEntries entries
      = some ((stableSort sortLe (languagePercentages entries)).take 8)
    ∧ ((stableSort sortLe (languagePercentages entries)).take 8).Pairwise
        (fun a b => sortLe a b = true)
    ∧ ((stableSort sortLe (languagePercentages entries)).take 8).length
        = min 8 entries.length := by
  refine ⟨rank_eq_of_pos entries h, ?_, ?_⟩
  · refine List.Pairwise.sublist (List.take_sublist 8 _) ?_
    refine pairwise_stableSort sortLe sortLe_trans _ ?_
    intro x hx y hy
    rcases mem_languagePercentages_fin entries h x hx with ⟨qx, hqx⟩
    rcases mem_languagePercentages_fin entries h y hy with ⟨qy, hqy⟩
    apply sortLe_total
    · rw [hqx]
      rfl
    · rw [hqy]
      rfl
  · rw [List.length_take, length_stableSort]
    unfold languagePercentages
    rw [List.length_map]

/-- C2 witness: a concrete two-language totals map is ranked, sorted and
truncated as stated. -/
theorem ranked_descending_and_truncated_witness :
    rankFromEntries [("Go", 600), ("TS", 400)]
      = some ((stableSort sortLe (languagePercentages [("Go", 600), ("TS", 400)])).take 8)
    ∧ ((stableSort sortLe (languagePercentages [("Go", 600), ("TS", 400)])).take 8).Pairwise
        (fun a b => sortLe a b = true)
    ∧ ((stableSort sortLe (languagePercentages [("Go", 600), ("TS", 400)])).take 8).length
        = min 8 ([("Go", 600), ("TS", 400)] : List (String × Nat)).length :=
  ranked_descending_and_truncated [("Go", 600), ("TS", 400)] (by decide) (by decide)

/-- C6: with a positive total, every entry's percentage is exactly
(bytes / total) × 100 (in the exact-rational model of `f64`), and the
percentages of the full untruncated set sum to exactly 100. -/
theorem percentage_formula_and_total (entries : List (String × Nat))
    (h : 0 < totalBytes entries) :
    languagePercentages entries
      = entries.map (fun e => (e.1, F.fin ((e.2 : ℚ) / (totalBytes entries : ℚ) * 100)))
    ∧ (entries.map (fun e => (e.2 : ℚ) / (totalBytes entries : ℚ) * 100)).sum = 100 := by
  have ht : ((totalBytes entries : ℚ)) ≠ 0 := (Nat.cast_pos.mpr h).ne'
  refine ⟨languagePercentages_eq entries h, ?_⟩
  have hmm : entries.map (fun e => (e.2 : ℚ) / (totalBytes entries : ℚ) * 100)
      = (entries.map (fun e => e.2)).map
          (fun c : Nat => (c : ℚ) / (totalBytes entries : ℚ) * 100) := by
    rw [List.map_map]
    rfl
  rw [hmm, sum_div_mul]
  have hc : ((entries.map (fun e => e.2)).map (fun c : Nat => (c : ℚ))).sum
      = ((totalBytes entries : ℚ)) := by
    unfold totalBytes
    exact (Nat.cast_list_sum _).symm
  rw [hc, div_self ht, one_mul]

/-- C6 witness: two languages at 500 bytes each out of 1000 get 50% each,
summing to 100. -/
theorem percentage_formula_and_total_witness :
    languagePercentages [("Go", 500), ("TS", 500)]
      = ([("Go", 500), ("TS", 500)] : List (String × Nat)).map
          (fun e => (e.1, F.fin ((e.2 : ℚ) / (totalBytes [("Go", 500), ("TS", 500)] : ℚ) * 100)))
    ∧ (([("Go", 500), ("TS", 500)] : List (String × Nat)).map
        (fun e => (e.2 : ℚ) / (totalBytes [("Go", 500), ("TS", 500)] : ℚ) * 100)).sum = 100 :=
  percentage_formula_and_total [("Go", 500), ("TS", 500)] (by decide)

/-- C8: with non-negative integer byte counts and a positive total,
every computed percentage is a finite (non-NaN) float, every pairwise
`partial_cmp` during the sort succeeds, and the ranking never hits the
`unwrap` abort (the `none` branch of `rankFromEntries` is unreachable). -/
theorem percentages_orderable (entries : List (String × Nat)) (h : 0 < totalBytes entries) :
    (languagePercentages entries).all (fun p => F.isFinite p.2) = true
    ∧ ((languagePercentages entries).all
        (fun p => (languagePercentages entries).all (fun q => (cmpF p.2 q.2).isSome))) = true
    ∧ rankFromEntries entries ≠ none := by
  refine ⟨?_, ?_, ?_⟩
  · simp only [List.all_eq_true]
    intro x hx
    rcases mem_languagePercentages_fin entries h x hx with ⟨q, hq⟩
    rw [hq]
    rfl
  · simp only [List.all_eq_true]
    intro x hx y hy
    rcases mem_languagePercentages_fin entries h x hx with ⟨qx, hqx⟩
    rcases mem_languagePercentages_fin entries h y hy with ⟨qy, hqy⟩
    rw [hqx, hqy]
    rfl
  · rw [rank_eq_of_pos entries h]
    exact Option.some_ne_none _

/-- C8 witness: the concrete map has finite, orderable percentages and a
successful ranking. -/
theorem percentages_orderable_witness :
    (languagePercentages [("Go", 500), ("TS", 500)]).all (fun p => F.isFinite p.2) = true
    ∧ ((languagePercentages [("Go", 500), ("TS", 500)]).all
        (fun p => (languagePercentages [("Go", 500), ("TS", 500)]).all
          (fun q => (cmpF p.2 q.2).isSome))) = true
    ∧ rankFromEntries [("Go", 500), ("TS", 500)] ≠ none :=
  percentages_orderable [("Go", 500), ("TS", 500)] (by decide)

/-- C1 (code bug): at percentage 200 the renderer computes
`num_filled = round(200/10) = 20`, and `10 - num_filled` underflows on
`usize` — the `.max(0)` cannot clamp an unsigned subtraction that has
already wrapped — so the call aborts instead of returning 20 filled and
0 empty glyphs as the specification requires. -/
theorem progress_bar_crashes_beyond_range : renderProgressBar 200 = none := by
  unfold renderProgressBar roundHalfAway
  norm_num
